import Mathlib

/-!
Shallow embedding of `immich_ml/models/animal_recognition/classification.py`.

The module classifies an image with a pretrained ImageNet network and maps the
top-20 class labels onto coarse animal buckets by substring matching against a
fixed keyword table.  The network forward pass and the image preprocessing
helpers are external collaborators; the embedding represents the forward pass
as an opaque function producing a logit vector and models everything from the
logits on: the numerically stable softmax (line 72-73), the fallback
placeholder labels (line 76-81), the top-20 selection via `np.argsort`
(line 84), the keyword-to-bucket max-aggregation loop (line 85-94) and the
final stable descending sort by score (line 97).

Python strings are modelled as lists of characters, Python's `k in label`
substring test as a prefix-at-some-position scan, the insertion-ordered
`found` dict as an association list, and `sorted(..., reverse=True)` as a
stable insertion sort with reversed comparisons.  Scores are kept polymorphic
over a linear order so that the combinatorial post-processing can be evaluated
on rational or natural inputs, and are instantiated at the reals composed with
the softmax for the end-to-end model.
-/

namespace ImmichAnimal

/-- Python string modelled as its list of characters. -/
abbrev PyStr := List Char

/-- Python `s.lower()` : lower-case every character. -/
def lowerStr (s : PyStr) : PyStr := s.map Char.toLower

/-- Test whether `pat` occurs at the start of `s`. -/
def startsWithL : PyStr → PyStr → Bool
  | [], _ => true
  | _ :: _, [] => false
  | a :: as, b :: bs => a == b && startsWithL as bs

/-- Python `pat in s` : `pat` occurs contiguously somewhere in `s`
(line 91 of the source, `if k in label`). -/
def hasSubstr : PyStr → PyStr → Bool
  | [], pat => startsWithL pat []
  | c :: cs, pat => startsWithL pat (c :: cs) || hasSubstr cs pat

/-- The module-level `ANIMAL_BUCKETS` table (lines 13-30 of the source),
in source order: bucket name paired with its keyword substrings. -/
def ANIMAL_BUCKETS : List (String × List PyStr) := [
  ("Dog", ["dog".data, "labrador".data, "retriever".data, "shepherd".data,
           "chihuahua".data, "pug".data, "husky".data, "terrier".data]),
  ("Cat", ["cat".data, "tabby".data, "siamese".data, "persian".data, "lynx".data]),
  ("Bird", ["bird".data, "parrot".data, "jay".data, "magpie".data, "penguin".data,
            "ostrich".data, "eagle".data, "owl".data, "king penguin".data]),
  ("Horse", ["horse".data, "zebra".data, "donkey".data]),
  ("Cattle", ["cow".data, "ox".data, "bison".data, "buffalo".data]),
  ("Sheep", ["sheep".data, "ram".data]),
  ("Goat", ["goat".data]),
  ("Pig", ["pig".data, "boar".data, "hog".data]),
  ("Rabbit", ["hare".data, "rabbit".data]),
  ("Bear", ["bear".data, "panda".data]),
  ("Feline", ["tiger".data, "lion".data, "leopard".data, "cheetah".data, "jaguar".data]),
  ("Canine", ["wolf".data, "fox".data]),
  ("Rodent", ["mouse".data, "rat".data, "squirrel".data, "hamster".data]),
  ("Reptile", ["snake".data, "lizard".data, "crocodile".data, "turtle".data]),
  ("Fish", ["fish".data, "shark".data, "ray".data, "goldfish".data]),
  ("Insect", ["butterfly".data, "bee".data, "ant".data, "dragonfly".data,
              "ladybug".data, "beetle".data, "mosquito".data])]

variable {α : Type*} [LinearOrder α] [Zero α]

/-- Insert an (index, value) pair into a list already ascending by value. -/
def insertAsc (x : Nat × α) : List (Nat × α) → List (Nat × α)
  | [] => [x]
  | y :: ys => if x.2 ≤ y.2 then x :: y :: ys else y :: insertAsc x ys

/-- Sort (index, value) pairs ascending by value.  Models the ordering
produced by `np.argsort` (the numpy sort is not stable across ties; this
model fixes one deterministic tie order, and no claim below depends on the
tie order). -/
def sortAsc : List (Nat × α) → List (Nat × α)
  | [] => []
  | x :: xs => insertAsc x (sortAsc xs)

/-- Pair every element with its position, starting at `k`. -/
def enumL : Nat → List α → List (Nat × α)
  | _, [] => []
  | k, a :: as => (k, a) :: enumL (k + 1) as

/-- Model of `np.argsort(probs)` : indices of `probs` ordered by ascending
probability (line 84). -/
def argsortL (probs : List α) : List Nat := (sortAsc (enumL 0 probs)).map Prod.fst

/-- Model of `np.argsort(probs)[-20:][::-1]` (line 84): the last (at most) 20
entries of the ascending argsort, reversed, i.e. the top-20 indices in
descending probability order. -/
def topk (probs : List α) : List Nat :=
  let a := argsortL probs
  (a.drop (a.length - 20)).reverse

/-- Model of lines 93-94 on the insertion-ordered `found` dict:
`if bucket not in found or found[bucket] < score: found[bucket] = score`.
An existing key keeps its position; a new key is appended at the end,
exactly as a Python dict behaves. -/
def setMax (fd : List (String × α)) (b : String) (s : α) : List (String × α) :=
  match fd with
  | [] => [(b, s)]
  | (k, v) :: rest =>
      if k = b then (k, if v < s then s else v) :: rest
      else (k, v) :: setMax rest b s

/-- Inner loop over one bucket's keywords (lines 90-94). -/
def applyKeywords (fd : List (String × α)) (bucket : String) (kws : List PyStr)
    (label : PyStr) (score : α) : List (String × α) :=
  kws.foldl (fun fd k => if hasSubstr label k then setMax fd bucket score else fd) fd

/-- Loop over all buckets for one selected class (lines 89-94). -/
def applyBuckets (fd : List (String × α)) (label : PyStr) (score : α) :
    List (String × α) :=
  ANIMAL_BUCKETS.foldl (fun fd bk => applyKeywords fd bk.1 bk.2 label score) fd

/-- The whole `for idx in topk` loop (lines 85-94) building the `found` dict:
label lower-cased once, score read once, then the bucket/keyword scan. -/
def bucketFold (labels : List PyStr) (probs : List α) : List (String × α) :=
  (topk probs).foldl
    (fun fd idx => applyBuckets fd (lowerStr (labels.getD idx [])) (probs.getD idx 0))
    []

/-- Insert a (bucket, score) pair into a list already descending by score,
placing it before the first entry of smaller-or-equal score; this is the
stable behaviour of Python's `sorted(..., reverse=True)` on ties. -/
def insertDesc (x : String × α) : List (String × α) → List (String × α)
  | [] => [x]
  | y :: ys => if y.2 ≤ x.2 then x :: y :: ys else y :: insertDesc x ys

/-- Stable sort descending by score: models line 97,
`sorted(found, key=found.get, reverse=True)` over the insertion-ordered dict. -/
def sortDescBy : List (String × α) → List (String × α)
  | [] => []
  | x :: xs => insertDesc x (sortDescBy xs)

/-- Lines 84-98 of `predict` : from class probabilities and the label list to
the final list of `\x7b"label": bucket, "score": score\x7d` entries, here
(bucket, score) pairs sorted descending by score. -/
def predictFromProbs (labels : List PyStr) (probs : List α) : List (String × α) :=
  sortDescBy (bucketFold labels probs)

/-- Model of `np.max` restricted to how the source uses it: the maximum of a
list, with a default for the empty list (on which numpy would raise). -/
def listMaxD : List α → α → α
  | [], d => d
  | x :: xs, _ => xs.foldl max x

/-- Lines 72-73: numerically stable softmax over the real semantics of the
float computation, `probs = exp(logits - max(logits)); probs /= probs.sum()`. -/
noncomputable def softmax (logits : List ℝ) : List ℝ :=
  let m := listMaxD logits 0
  let exps := logits.map (fun x => Real.exp (x - m))
  exps.map (fun e => e / exps.sum)

/-- Modelled from the spec: the standard (non-shifted) softmax, used only to
compare the source's max-shifted computation against the textbook definition. -/
noncomputable def naiveSoftmax (logits : List ℝ) : List ℝ :=
  let exps := logits.map Real.exp
  exps.map (fun e => e / exps.sum)

/-- The logits-to-result part of `predict` (lines 72-98) with real labels. -/
noncomputable def predictModel (labels : List PyStr) (logits : List ℝ) :
    List (String × ℝ) :=
  predictFromProbs labels (softmax logits)

/-- The per-instance state `predict` can read: the label list and the loaded
network, the latter opaque, as a function from (preprocessed) image to logit
vector.  `predict` assigns no attribute of `self`, so a call returns the state
unchanged. -/
structure ClassifierState (Img : Type) where
  labels : List PyStr
  modelFn : Img → List ℝ

/-- One `predict` call as a state transformer: result plus resulting state.
The body performs no write to the state, mirroring the source, where
`predict` only reads `self.model` / the label list. -/
noncomputable def predictCall {Img : Type} (st : ClassifierState Img) (img : Img) :
    List (String × ℝ) × ClassifierState Img :=
  (predictFromProbs st.labels (softmax (st.modelFn img)), st)

/-- Decimal digits of a natural number, as Python's str() renders it. -/
def natDigits (n : Nat) : List Char :=
  if n < 10 then [Char.ofNat (48 + n)]
  else natDigits (n / 10) ++ [Char.ofNat (48 + n % 10)]
decreasing_by exact Nat.div_lt_self (by omega) (by omega)

/-- The fallback label of line 81: the Python f-string `f"class_\x7bi\x7d"`. -/
def placeholderLabel (i : Nat) : PyStr := "class_".data ++ natDigits i

/-- The whole fallback label list of line 81,
`[f"class_\x7bi\x7d" for i in range(n)]`. -/
def placeholderLabels (n : Nat) : List PyStr := (List.range n).map placeholderLabel

/-- Characters that can occur in a placeholder label. -/
def goodChar (c : Char) : Prop := c ∈ "class_0123456789".data

instance (c : Char) : Decidable (goodChar c) := by unfold goodChar; infer_instance

/-- Lookup in an association list with string keys (Python `found[b]` /
`b in found`). -/
def lookupKey {β : Type*} (b : String) : List (String × β) → Option β
  | [] => none
  | (k, v) :: r => if k = b then some v else lookupKey b r

/-- The keys of an association list, in order. -/
def keysOf {β : Type*} (fd : List (String × β)) : List String := fd.map Prod.fst

/-- Whether one selected class label matches a bucket's keyword list
(the `any` of line 90-91's scan). -/
def entryMatches (label : PyStr) (kws : List PyStr) : Bool :=
  kws.any (fun k => hasSubstr label k)

/-- The probabilities of the selected top-K classes whose lower-cased label
matches the given keyword list, in selection order. -/
def matchingScores (labels : List PyStr) (probs : List α) (kws : List PyStr) :
    List α :=
  (topk probs).filterMap (fun idx =>
    if entryMatches (lowerStr (labels.getD idx [])) kws then some (probs.getD idx 0)
    else none)

/-- Fold one more score into an optional running maximum. -/
def omax : Option α → α → Option α
  | none, s => some s
  | some v, s => some (max v s)

/-- The maximum of a list of scores, `none` on the empty list. -/
def omaxList (l : List α) : Option α := l.foldl omax none

/-- The bucket loop of `applyBuckets` over an arbitrary bucket table,
for reasoning by induction on the table. -/
def applyBucketsGen (bks : List (String × List PyStr)) (fd : List (String × α))
    (label : PyStr) (score : α) : List (String × α) :=
  bks.foldl (fun fd bk => applyKeywords fd bk.1 bk.2 label score) fd

/-- The body of the `for idx in topk` loop as a single step function. -/
def stepIdx (labels : List PyStr) (probs : List α) (fd : List (String × α))
    (idx : Nat) : List (String × α) :=
  applyBuckets fd (lowerStr (labels.getD idx [])) (probs.getD idx 0)

/-! ### Substring facts -/

theorem startsWithL_subset {pat s : PyStr} (h : startsWithL pat s = true) :
    ∀ c ∈ pat, c ∈ s := by
  induction pat generalizing s with
  | nil => intro c hc; cases hc
  | cons a as ih =>
      cases s with
      | nil => simp [startsWithL] at h
      | cons b bs =>
          simp only [startsWithL, Bool.and_eq_true, beq_iff_eq] at h
          intro c hc
          rcases List.mem_cons.mp hc with rfl | hc
          · exact h.1 ▸ List.mem_cons_self _ _
          · exact List.mem_cons_of_mem _ (ih h.2 c hc)

theorem hasSubstr_subset {s pat : PyStr} (h : hasSubstr s pat = true) :
    ∀ c ∈ pat, c ∈ s := by
  induction s with
  | nil => exact startsWithL_subset h
  | cons b bs ih =>
      simp only [hasSubstr, Bool.or_eq_true] at h
      rcases h with h | h
      · exact startsWithL_subset h
      · intro c hc; exact List.mem_cons_of_mem _ (ih h c hc)

theorem hasSubstr_false_of_bad {s pat : PyStr} {c : Char} (hc : c ∈ pat)
    (hbad : ¬ goodChar c) (hs : ∀ c' ∈ s, goodChar c') :
    hasSubstr s pat = false := by
  cases hEq : hasSubstr s pat with
  | false => rfl
  | true => exact absurd (hs c (hasSubstr_subset hEq c hc)) hbad

/-! ### Facts about the optional running maximum -/

theorem foldl_omax_some_spec (l : List α) (a : α) :
    ∃ s, l.foldl omax (some a) = some s ∧ (s = a ∨ s ∈ l) ∧ a ≤ s ∧
      ∀ x ∈ l, x ≤ s := by
  induction l generalizing a with
  | nil => exact ⟨a, rfl, Or.inl rfl, le_refl a, by simp⟩
  | cons x xs ih =>
      obtain ⟨s, hs, hmem, hle, hub⟩ := ih (max a x)
      refine ⟨s, by simpa [omax] using hs, ?_, le_trans (le_max_left a x) hle, ?_⟩
      · rcases hmem with rfl | h
        · rcases max_choice a x with hm | hm
          · exact Or.inl hm
          · refine Or.inr ?_; rw [hm]; exact List.mem_cons_self _ _
        · exact Or.inr (List.mem_cons_of_mem _ h)
      · intro y hy
        rcases List.mem_cons.mp hy with rfl | hy
        · exact le_trans (le_max_right a y) hle
        · exact hub y hy

theorem omaxList_eq_some {l : List α} {s : α} (h : omaxList l = some s) :
    s ∈ l ∧ ∀ x ∈ l, x ≤ s := by
  cases l with
  | nil => simp [omaxList] at h
  | cons x xs =>
      obtain ⟨t, ht, hmem, hle, hub⟩ := foldl_omax_some_spec xs x
      have hlist : omaxList (x :: xs) = some t := by simpa [omaxList, omax] using ht
      have hts : t = s := Option.some.inj (hlist.symm.trans h)
      subst hts
      refine ⟨?_, ?_⟩
      · rcases hmem with rfl | hm
        · exact List.mem_cons_self _ _
        · exact List.mem_cons_of_mem _ hm
      · intro y hy
        rcases List.mem_cons.mp hy with rfl | hy
        · exact hle
        · exact hub y hy

theorem omaxList_ne_nil {l : List α} (h : l ≠ []) : ∃ s, omaxList l = some s := by
  cases l with
  | nil => exact absurd rfl h
  | cons x xs =>
      obtain ⟨s, hs, _⟩ := foldl_omax_some_spec xs x
      exact ⟨s, by simpa [omaxList, omax] using hs⟩

/-! ### The ascending insertion sort modelling `np.argsort` -/

theorem insertAsc_perm (x : Nat × α) (l : List (Nat × α)) :
    (insertAsc x l).Perm (x :: l) := by
  induction l with
  | nil => exact List.Perm.refl _
  | cons y ys ih =>
      by_cases h : x.2 ≤ y.2
      · simp [insertAsc, h]
      · simp only [insertAsc, h, if_false]
        exact (List.Perm.cons y ih).trans (List.Perm.swap x y ys)

theorem sortAsc_perm (l : List (Nat × α)) : (sortAsc l).Perm l := by
  induction l with
  | nil => exact List.Perm.refl _
  | cons x xs ih =>
      exact ((insertAsc_perm x (sortAsc xs)).trans (List.Perm.cons x ih))

theorem insertAsc_pairwise {l : List (Nat × α)}
    (hl : l.Pairwise (fun a b => a.2 ≤ b.2)) (x : Nat × α) :
    (insertAsc x l).Pairwise (fun a b => a.2 ≤ b.2) := by
  induction l with
  | nil => simp [insertAsc]
  | cons y ys ih =>
      rcases List.pairwise_cons.mp hl with ⟨hy, hys⟩
      by_cases h : x.2 ≤ y.2
      · simp only [insertAsc, h, if_true]
        exact List.pairwise_cons.mpr ⟨by
          intro z hz
          rcases List.mem_cons.mp hz with rfl | hz
          · exact h
          · exact le_trans h (hy z hz), hl⟩
      · simp only [insertAsc, h, if_false]
        refine List.pairwise_cons.mpr ⟨?_, ih hys⟩
        intro z hz
        have hz' := (insertAsc_perm x ys).mem_iff.mp hz
        rcases List.mem_cons.mp hz' with rfl | hz'
        · exact le_of_lt (lt_of_not_le h)
        · exact hy z hz'

theorem sortAsc_pairwise (l : List (Nat × α)) :
    (sortAsc l).Pairwise (fun a b => a.2 ≤ b.2) := by
  induction l with
  | nil => simp [sortAsc]
  | cons x xs ih => exact insertAsc_pairwise ih x

/-! ### The descending stable insertion sort modelling the final `sorted` -/

theorem insertDesc_perm (x : String × α) (l : List (String × α)) :
    (insertDesc x l).Perm (x :: l) := by
  induction l with
  | nil => exact List.Perm.refl _
  | cons y ys ih =>
      by_cases h : y.2 ≤ x.2
      · simp [insertDesc, h]
      · simp only [insertDesc, h, if_false]
        exact (List.Perm.cons y ih).trans (List.Perm.swap x y ys)

theorem sortDescBy_perm (l : List (String × α)) : (sortDescBy l).Perm l := by
  induction l with
  | nil => exact List.Perm.refl _
  | cons x xs ih =>
      exact ((insertDesc_perm x (sortDescBy xs)).trans (List.Perm.cons x ih))

theorem insertDesc_pairwise {l : List (String × α)}
    (hl : l.Pairwise (fun a b => b.2 ≤ a.2)) (x : String × α) :
    (insertDesc x l).Pairwise (fun a b => b.2 ≤ a.2) := by
  induction l with
  | nil => simp [insertDesc]
  | cons y ys ih =>
      rcases List.pairwise_cons.mp hl with ⟨hy, hys⟩
      by_cases h : y.2 ≤ x.2
      · simp only [insertDesc, h, if_true]
        exact List.pairwise_cons.mpr ⟨by
          intro z hz
          rcases List.mem_cons.mp hz with rfl | hz
          · exact h
          · exact le_trans (hy z hz) h, hl⟩
      · simp only [insertDesc, h, if_false]
        refine List.pairwise_cons.mpr ⟨?_, ih hys⟩
        intro z hz
        have hz' := (insertDesc_perm x ys).mem_iff.mp hz
        rcases List.mem_cons.mp hz' with rfl | hz'
        · exact le_of_lt (lt_of_not_le h)
        · exact hy z hz'

theorem sortDescBy_pairwise (l : List (String × α)) :
    (sortDescBy l).Pairwise (fun a b => b.2 ≤ a.2) := by
  induction l with
  | nil => simp [sortDescBy]
  | cons x xs ih => exact insertDesc_pairwise ih x

theorem insertDesc_eq_cons {x : String × α} {l : List (String × α)}
    (h : ∀ y ∈ l, y.2 ≤ x.2) : insertDesc x l = x :: l := by
  cases l with
  | nil => rfl
  | cons y ys => simp [insertDesc, h y (List.mem_cons_self _ _)]

theorem sortDescBy_cons_of_max {x : String × α} {l : List (String × α)}
    (h : ∀ y ∈ l, y.2 ≤ x.2) : sortDescBy (x :: l) = x :: sortDescBy l := by
  have : ∀ y ∈ sortDescBy l, y.2 ≤ x.2 := fun y hy =>
    h y ((sortDescBy_perm l).mem_iff.mp hy)
  simp only [sortDescBy]
  exact insertDesc_eq_cons this

/-! ### Enumeration, argsort and top-K selection -/

theorem enumL_length (k : Nat) (l : List α) : (enumL k l).length = l.length := by
  induction l generalizing k with
  | nil => rfl
  | cons a as ih => simp [enumL, ih]

theorem enumL_map_fst (k : Nat) (l : List α) :
    (enumL k l).map Prod.fst = List.range' k l.length := by
  induction l generalizing k with
  | nil => rfl
  | cons a as ih => simp [enumL, List.range', ih]

theorem enumL_mem_getD (d : α) {k : Nat} {l : List α} {p : Nat × α}
    (hp : p ∈ enumL k l) :
    k ≤ p.1 ∧ p.1 - k < l.length ∧ l.getD (p.1 - k) d = p.2 := by
  induction l generalizing k with
  | nil => cases hp
  | cons a as ih =>
      rcases List.mem_cons.mp hp with rfl | hp
      · simp
      · obtain ⟨h1, h2, h3⟩ := ih hp
        refine ⟨by omega, by simp; omega, ?_⟩
        have hj : p.1 - k = (p.1 - (k + 1)) + 1 := by omega
        rw [hj, List.getD_cons_succ]
        exact h3

theorem enumL_mem_of (d : α) {l : List α} {j : Nat} (hj : j < l.length) (k : Nat) :
    (k + j, l.getD j d) ∈ enumL k l := by
  induction l generalizing k j with
  | nil => simp at hj
  | cons a as ih =>
      cases j with
      | zero => simp [enumL]
      | succ j' =>
          have hkj : k + (j' + 1) = (k + 1) + j' := by omega
          rw [hkj, List.getD_cons_succ]
          exact List.mem_cons_of_mem _ (ih (by simpa using hj) (k + 1))

theorem argsortL_perm (probs : List α) :
    (argsortL probs).Perm (List.range probs.length) := by
  have h1 : (argsortL probs).Perm ((enumL 0 probs).map Prod.fst) :=
    (sortAsc_perm (enumL 0 probs)).map Prod.fst
  rw [enumL_map_fst, ← List.range_eq_range'] at h1
  exact h1

theorem argsortL_length (probs : List α) : (argsortL probs).length = probs.length :=
  (argsortL_perm probs).length_eq.trans (List.length_range _)

theorem argsortL_nodup (probs : List α) : (argsortL probs).Nodup :=
  (argsortL_perm probs).nodup_iff.mpr (List.nodup_range _)

theorem topk_subset (probs : List α) : topk probs ⊆ argsortL probs := by
  intro i hi
  simp only [topk, List.mem_reverse] at hi
  exact (List.drop_subset _ _) hi

theorem topk_mem_lt {probs : List α} {i : Nat} (h : i ∈ topk probs) :
    i < probs.length := by
  have := (argsortL_perm probs).mem_iff.mp (topk_subset probs h)
  exact List.mem_range.mp this

theorem topk_nodup (probs : List α) : (topk probs).Nodup := by
  simp only [topk, List.nodup_reverse]
  exact (List.drop_sublist _ _).nodup (argsortL_nodup probs)

theorem topk_length (probs : List α) :
    (topk probs).length = min 20 probs.length := by
  simp only [topk, List.length_reverse, List.length_drop, argsortL_length]
  omega

theorem sortAsc_enum_mem {probs : List α} {p : Nat × α}
    (hp : p ∈ sortAsc (enumL 0 probs)) :
    p.1 < probs.length ∧ probs.getD p.1 0 = p.2 := by
  have hp' := (sortAsc_perm (enumL 0 probs)).mem_iff.mp hp
  obtain ⟨_, h2, h3⟩ := enumL_mem_getD 0 hp'
  rw [Nat.sub_zero] at h2 h3
  exact ⟨h2, h3⟩

theorem topk_drop_eq (probs : List α) :
    topk probs =
      (((sortAsc (enumL 0 probs)).drop ((argsortL probs).length - 20)).map
        Prod.fst).reverse := by
  simp only [topk, argsortL, List.map_drop, List.length_map]

theorem topk_dominates {probs : List α} {i j : Nat} (hi : i ∈ topk probs)
    (hj : j < probs.length) (hjn : j ∉ topk probs) :
    probs.getD j 0 ≤ probs.getD i 0 := by
  set s := sortAsc (enumL 0 probs) with hs
  set m := (argsortL probs).length - 20 with hm
  rw [topk_drop_eq] at hi hjn
  rw [List.mem_reverse] at hi
  obtain ⟨p, hpmem, hpfst⟩ := List.mem_map.mp hi
  have hq : ((j, probs.getD j 0) : Nat × α) ∈ enumL 0 probs := by
    simpa using enumL_mem_of 0 hj 0
  have hqs : ((j, probs.getD j 0) : Nat × α) ∈ s :=
    (sortAsc_perm (enumL 0 probs)).mem_iff.mpr hq
  have hsplit : s.take m ++ s.drop m = s := List.take_append_drop m s
  have hpairs : List.Pairwise (fun a b : Nat × α => a.2 ≤ b.2) (s.take m ++ s.drop m) := by
    rw [hsplit]; exact sortAsc_pairwise (enumL 0 probs)
  have hqtake : ((j, probs.getD j 0) : Nat × α) ∈ s.take m := by
    rw [← hsplit] at hqs
    rcases List.mem_append.mp hqs with h | h
    · exact h
    · exact absurd (by rw [List.mem_reverse]; exact List.mem_map_of_mem Prod.fst h) hjn
  have hcross := (List.pairwise_append.mp hpairs).2.2 _ hqtake p hpmem
  have hpv := (sortAsc_enum_mem (hs ▸ (List.drop_subset m s hpmem))).2
  rw [hpfst] at hpv
  calc probs.getD j 0 ≤ p.2 := hcross
    _ = probs.getD i 0 := hpv.symm

theorem topk_sorted (probs : List α) :
    (topk probs).Pairwise (fun a b => probs.getD b 0 ≤ probs.getD a 0) := by
  set s := sortAsc (enumL 0 probs) with hs
  set m := (argsortL probs).length - 20 with hm
  rw [topk_drop_eq]
  rw [List.pairwise_reverse, List.pairwise_map]
  have hdrop : List.Pairwise (fun a b : Nat × α => a.2 ≤ b.2) (s.drop m) :=
    List.Pairwise.sublist (List.drop_sublist m s) (sortAsc_pairwise (enumL 0 probs))
  refine List.Pairwise.imp_of_mem ?_ hdrop
  intro p q hp hq hpq
  have hpv := (sortAsc_enum_mem (hs ▸ (List.drop_subset m s hp))).2
  have hqv := (sortAsc_enum_mem (hs ▸ (List.drop_subset m s hq))).2
  rw [hpv, hqv]
  exact hpq

theorem topk_ne_nil {probs : List α} (h : probs ≠ []) : topk probs ≠ [] := by
  have hlen : (topk probs).length = min 20 probs.length := topk_length probs
  have hp : 0 < probs.length := List.length_pos.mpr h
  have : 0 < (topk probs).length := by omega
  exact List.ne_nil_of_length_pos this

theorem mem_topk_of_strict_max {probs : List α} {i : Nat} (hi : i < probs.length)
    (hmax : ∀ j, j < probs.length → j ≠ i → probs.getD j 0 < probs.getD i 0) :
    i ∈ topk probs := by
  by_contra hni
  have hne : probs ≠ [] := List.ne_nil_of_length_pos (by omega)
  obtain ⟨h, hh⟩ := List.exists_mem_of_ne_nil _ (topk_ne_nil hne)
  have hdom := topk_dominates hh hi hni
  have hhi : h ≠ i := fun hEq => hni (hEq ▸ hh)
  exact absurd (lt_of_le_of_lt hdom (hmax h (topk_mem_lt hh) hhi)) (lt_irrefl _)

theorem topk_eq_cons_of_strict_max {probs : List α} {i : Nat}
    (hi : i < probs.length)
    (hmax : ∀ j, j < probs.length → j ≠ i → probs.getD j 0 < probs.getD i 0) :
    ∃ t, topk probs = i :: t := by
  have hne : probs ≠ [] := List.ne_nil_of_length_pos (by omega)
  obtain ⟨x, t, hxt⟩ := List.exists_cons_of_ne_nil (topk_ne_nil hne)
  have hmem := mem_topk_of_strict_max hi hmax
  have hx : x ∈ topk probs := hxt ▸ List.mem_cons_self _ _
  have hxi : x = i := by
    by_contra hne'
    have hxlt : x < probs.length := topk_mem_lt hx
    have hlt := hmax x hxlt hne'
    rw [hxt] at hmem
    rcases List.mem_cons.mp hmem with h | hit
    · exact hne' h.symm
    · have hsorted := topk_sorted probs
      rw [hxt] at hsorted
      have hrel := (List.pairwise_cons.mp hsorted).1 i hit
      exact absurd (lt_of_le_of_lt hrel hlt) (lt_irrefl _)
  exact ⟨t, by rw [hxt, hxi]⟩

/-! ### The found dictionary: setMax, lookup, keys -/

theorem ite_lt_max (v s : α) : (if v < s then s else v) = max v s := by
  by_cases h : v < s
  · simp [h, max_eq_right (le_of_lt h)]
  · simp [h, max_eq_left (le_of_not_lt h)]

theorem setMax_setMax (fd : List (String × α)) (b : String) (s : α) :
    setMax (setMax fd b s) b s = setMax fd b s := by
  induction fd with
  | nil => simp [setMax, lt_irrefl]
  | cons p rest ih =>
      obtain ⟨k, v⟩ := p
      by_cases hk : k = b
      · subst hk
        by_cases hv : v < s
        · simp [setMax, hv, lt_irrefl]
        · simp [setMax, hv]
      · simp [setMax, hk, ih]

theorem lookupKey_setMax_self (fd : List (String × α)) (b : String) (s : α) :
    lookupKey b (setMax fd b s) = omax (lookupKey b fd) s := by
  induction fd with
  | nil => simp [setMax, lookupKey, omax]
  | cons p rest ih =>
      obtain ⟨k, v⟩ := p
      by_cases hk : k = b
      · subst hk
        simp [setMax, lookupKey, omax, ite_lt_max]
      · simp [setMax, lookupKey, hk, ih]

theorem lookupKey_setMax_ne (fd : List (String × α)) {b' b : String} (h : b' ≠ b)
    (s : α) : lookupKey b' (setMax fd b s) = lookupKey b' fd := by
  induction fd with
  | nil => simp [setMax, lookupKey, Ne.symm h]
  | cons p rest ih =>
      obtain ⟨k, v⟩ := p
      by_cases hk : k = b
      · have hkb' : ¬ k = b' := fun hEq => h (hEq.symm.trans hk)
        rw [show setMax ((k, v) :: rest) b s =
          (k, if v < s then s else v) :: rest by simp [setMax, hk]]
        simp [lookupKey, hkb']
      · rw [show setMax ((k, v) :: rest) b s =
          (k, v) :: setMax rest b s by simp [setMax, hk]]
        by_cases hk' : k = b'
        · simp [lookupKey, hk']
        · simp [lookupKey, hk', ih]

theorem keysOf_setMax (fd : List (String × α)) (b : String) (s : α) :
    keysOf (setMax fd b s) =
      if b ∈ keysOf fd then keysOf fd else keysOf fd ++ [b] := by
  induction fd with
  | nil => simp [setMax, keysOf]
  | cons p rest ih =>
      obtain ⟨k, v⟩ := p
      by_cases hk : k = b
      · subst hk
        simp [setMax, keysOf]
      · have hbk : b ≠ k := fun hEq => hk hEq.symm
        rw [show setMax ((k, v) :: rest) b s =
          (k, v) :: setMax rest b s by simp [setMax, hk]]
        have hc1 : keysOf ((k, v) :: setMax rest b s) =
            k :: keysOf (setMax rest b s) := rfl
        have hc2 : keysOf ((k, v) :: rest) = k :: keysOf rest := rfl
        rw [hc1, hc2, ih]
        by_cases hmem : b ∈ keysOf rest
        · rw [if_pos hmem, if_pos (List.mem_cons_of_mem _ hmem)]
        · have hnc : b ∉ k :: keysOf rest := by
            rw [List.mem_cons]
            rintro (hEq | hEq)
            · exact hbk hEq
            · exact hmem hEq
          rw [if_neg hmem, if_neg hnc, List.cons_append]

theorem mem_keysOf_setMax {fd : List (String × α)} {b b' : String} {s : α} :
    b' ∈ keysOf (setMax fd b s) ↔ b' ∈ keysOf fd ∨ b' = b := by
  rw [keysOf_setMax]
  by_cases hmem : b ∈ keysOf fd
  · rw [if_pos hmem]
    constructor
    · exact Or.inl
    · rintro (h | rfl)
      · exact h
      · exact hmem
  · rw [if_neg hmem]
    simp

theorem keysOf_setMax_nodup {fd : List (String × α)} (h : (keysOf fd).Nodup)
    (b : String) (s : α) : (keysOf (setMax fd b s)).Nodup := by
  rw [keysOf_setMax]
  by_cases hmem : b ∈ keysOf fd
  · simpa [hmem] using h
  · rw [if_neg hmem, List.nodup_append]
    refine ⟨h, List.nodup_singleton b, ?_⟩
    intro a ha hb
    rw [List.mem_singleton] at hb
    exact hmem (hb ▸ ha)

theorem setMax_values {fd : List (String × α)} {b : String} {s : α}
    {p : String × α} (hp : p ∈ setMax fd b s) :
    p.2 = s ∨ ∃ q ∈ fd, p.2 = q.2 := by
  induction fd with
  | nil =>
      simp only [setMax, List.mem_singleton] at hp
      exact Or.inl (by rw [hp])
  | cons q rest ih =>
      obtain ⟨k, v⟩ := q
      by_cases hk : k = b
      · subst hk
        simp only [setMax, if_true, List.mem_cons] at hp
        rcases hp with rfl | hp
        · by_cases hv : v < s
          · simp [hv]
          · exact Or.inr ⟨(k, v), List.mem_cons_self _ _, by simp [hv]⟩
        · exact Or.inr ⟨p, List.mem_cons_of_mem _ hp, rfl⟩
      · simp only [setMax, hk, if_false, List.mem_cons] at hp
        rcases hp with rfl | hp
        · exact Or.inr ⟨(k, v), List.mem_cons_self _ _, rfl⟩
        · rcases ih hp with h | ⟨q', hq', he⟩
          · exact Or.inl h
          · exact Or.inr ⟨q', List.mem_cons_of_mem _ hq', he⟩

theorem setMax_cons_head {k : String} {v : α} (r : List (String × α))
    (b : String) (s : α) (h : s ≤ v) :
    ∃ r', setMax ((k, v) :: r) b s = (k, v) :: r' := by
  by_cases hk : k = b
  · subst hk
    exact ⟨r, by simp [setMax, not_lt.mpr h]⟩
  · exact ⟨setMax r b s, by simp [setMax, hk]⟩

theorem lookupKey_eq_some_iff {fd : List (String × α)}
    (hnd : (keysOf fd).Nodup) {b : String} {v : α} :
    lookupKey b fd = some v ↔ (b, v) ∈ fd := by
  induction fd with
  | nil => simp [lookupKey]
  | cons p rest ih =>
      obtain ⟨k, w⟩ := p
      have hk_cons : keysOf ((k, w) :: rest) = k :: keysOf rest := rfl
      rw [hk_cons, List.nodup_cons] at hnd
      by_cases hk : k = b
      · subst hk
        simp only [lookupKey, if_true, List.mem_cons]
        constructor
        · intro h
          exact Or.inl (by rw [Option.some.inj h])
        · rintro (h | h)
          · obtain ⟨_, h2⟩ := Prod.mk.injEq .. ▸ h
            rw [(Prod.mk.injEq _ _ _ _).mp h |>.2]
          · exact absurd (List.mem_map_of_mem Prod.fst h) hnd.1
      · simp only [lookupKey, hk, if_false, List.mem_cons]
        rw [ih hnd.2]
        constructor
        · exact Or.inr
        · rintro (h | h)
          · exact absurd ((Prod.mk.injEq _ _ _ _).mp h).1.symm hk
          · exact h

/-! ### Collapsing the keyword loop and the bucket loop -/

theorem applyKeywords_eq (fd : List (String × α)) (b : String) (kws : List PyStr)
    (label : PyStr) (s : α) :
    applyKeywords fd b kws label s =
      if entryMatches label kws then setMax fd b s else fd := by
  induction kws generalizing fd with
  | nil => simp [applyKeywords, entryMatches]
  | cons k ks ih =>
      have hstep : applyKeywords fd b (k :: ks) label s =
          applyKeywords (if hasSubstr label k then setMax fd b s else fd) b ks label s := rfl
      have hcons : entryMatches label (k :: ks) =
          (hasSubstr label k || entryMatches label ks) := by
        simp [entryMatches]
      rw [hstep, hcons]
      cases hk : hasSubstr label k with
      | true =>
          rw [if_pos rfl, ih]
          cases hks : entryMatches label ks with
          | true => simp [setMax_setMax]
          | false => simp
      | false =>
          rw [if_neg (by simp), ih, Bool.false_or]

theorem applyBucketsGen_cons (bk : String × List PyStr)
    (bks : List (String × List PyStr)) (fd : List (String × α))
    (label : PyStr) (s : α) :
    applyBucketsGen (bk :: bks) fd label s =
      applyBucketsGen bks (applyKeywords fd bk.1 bk.2 label s) label s := rfl

theorem applyBuckets_eq_gen (fd : List (String × α)) (label : PyStr) (s : α) :
    applyBuckets fd label s = applyBucketsGen ANIMAL_BUCKETS fd label s := rfl

theorem lookupKey_applyBucketsGen_notmem {bks : List (String × List PyStr)}
    {b : String} (h : b ∉ bks.map Prod.fst) (fd : List (String × α))
    (label : PyStr) (s : α) :
    lookupKey b (applyBucketsGen bks fd label s) = lookupKey b fd := by
  induction bks generalizing fd with
  | nil => rfl
  | cons bk rest ih =>
      rw [List.map_cons, List.mem_cons] at h
      push_neg at h
      rw [applyBucketsGen_cons, ih h.2, applyKeywords_eq]
      by_cases hm : entryMatches label bk.2
      · rw [if_pos hm, lookupKey_setMax_ne _ h.1]
      · rw [if_neg hm]

theorem lookupKey_applyBucketsGen {bks : List (String × List PyStr)}
    (hnd : (bks.map Prod.fst).Nodup) {b : String} {kws : List PyStr}
    (hmem : (b, kws) ∈ bks) (fd : List (String × α)) (label : PyStr) (s : α) :
    lookupKey b (applyBucketsGen bks fd label s) =
      if entryMatches label kws then omax (lookupKey b fd) s
      else lookupKey b fd := by
  induction bks generalizing fd with
  | nil => cases hmem
  | cons bk rest ih =>
      rw [List.map_cons, List.nodup_cons] at hnd
      rcases List.mem_cons.mp hmem with heq | hmem'
      · have hb : bk.1 = b := by rw [← heq]
        have hkws : bk.2 = kws := by rw [← heq]
        have hnotm : b ∉ rest.map Prod.fst := hb ▸ hnd.1
        rw [applyBucketsGen_cons]
        rw [lookupKey_applyBucketsGen_notmem hnotm _ label s]
        rw [applyKeywords_eq, hb, hkws]
        by_cases hm : entryMatches label kws
        · rw [if_pos hm, if_pos hm, lookupKey_setMax_self]
        · rw [if_neg hm, if_neg hm]
      · have hbk_b : bk.1 ≠ b := by
          intro hEq
          refine hnd.1 ?_
          rw [hEq]
          exact List.mem_map_of_mem Prod.fst hmem'
        rw [applyBucketsGen_cons, ih hnd.2 hmem']
        have hfix : lookupKey b (applyKeywords fd bk.1 bk.2 label s) = lookupKey b fd := by
          rw [applyKeywords_eq]
          by_cases hm : entryMatches label bk.2
          · rw [if_pos hm, lookupKey_setMax_ne _ (Ne.symm hbk_b)]
          · rw [if_neg hm]
        rw [hfix]

theorem keysOf_applyBucketsGen_nodup {bks : List (String × List PyStr)}
    {fd : List (String × α)} (h : (keysOf fd).Nodup) (label : PyStr) (s : α) :
    (keysOf (applyBucketsGen bks fd label s)).Nodup := by
  induction bks generalizing fd with
  | nil => exact h
  | cons bk rest ih =>
      rw [applyBucketsGen_cons]
      refine ih ?_
      rw [applyKeywords_eq]
      by_cases hm : entryMatches label bk.2
      · rw [if_pos hm]; exact keysOf_setMax_nodup h _ _
      · rwa [if_neg hm]

theorem mem_keysOf_applyBucketsGen {bks : List (String × List PyStr)}
    {fd : List (String × α)} {label : PyStr} {s : α} {b' : String}
    (h : b' ∈ keysOf (applyBucketsGen bks fd label s)) :
    b' ∈ keysOf fd ∨ b' ∈ bks.map Prod.fst := by
  induction bks generalizing fd with
  | nil => exact Or.inl h
  | cons bk rest ih =>
      rw [applyBucketsGen_cons] at h
      rcases ih h with h' | h'
      · rw [applyKeywords_eq] at h'
        by_cases hm : entryMatches label bk.2
        · rw [if_pos hm] at h'
          rcases mem_keysOf_setMax.mp h' with h'' | rfl
          · exact Or.inl h''
          · exact Or.inr (by simp)
        · rw [if_neg hm] at h'
          exact Or.inl h'
      · exact Or.inr (List.mem_cons_of_mem _ h')

theorem applyBucketsGen_values {bks : List (String × List PyStr)}
    {fd : List (String × α)} {label : PyStr} {s : α} {p : String × α}
    (hp : p ∈ applyBucketsGen bks fd label s) :
    p.2 = s ∨ ∃ q ∈ fd, p.2 = q.2 := by
  induction bks generalizing fd with
  | nil => exact Or.inr ⟨p, hp, rfl⟩
  | cons bk rest ih =>
      rw [applyBucketsGen_cons] at hp
      rcases ih hp with h | ⟨q, hq, he⟩
      · exact Or.inl h
      · rw [applyKeywords_eq] at hq
        by_cases hm : entryMatches label bk.2
        · rw [if_pos hm] at hq
          rcases setMax_values hq with h' | ⟨q', hq', he'⟩
          · exact Or.inl (he ▸ h')
          · exact Or.inr ⟨q', hq', he.trans he'⟩
        · rw [if_neg hm] at hq
          exact Or.inr ⟨q, hq, he⟩

theorem applyBucketsGen_head {bks : List (String × List PyStr)} {k : String}
    {v : α} (r : List (String × α)) {label : PyStr} {s : α} (h : s ≤ v) :
    ∃ r', applyBucketsGen bks ((k, v) :: r) label s = (k, v) :: r' := by
  induction bks generalizing r with
  | nil => exact ⟨r, rfl⟩
  | cons bk rest ih =>
      rw [applyBucketsGen_cons, applyKeywords_eq]
      by_cases hm : entryMatches label bk.2
      · rw [if_pos hm]
        obtain ⟨r1, hr1⟩ := setMax_cons_head r bk.1 s h
        rw [hr1]
        exact ih r1
      · rw [if_neg hm]
        exact ih r

/-! ### The full found-building fold over the selected indices -/

theorem animal_buckets_keys_nodup : (ANIMAL_BUCKETS.map Prod.fst).Nodup := by decide

theorem bucketFold_eq_foldl (labels : List PyStr) (probs : List α) :
    bucketFold labels probs = (topk probs).foldl (stepIdx labels probs) [] := rfl

theorem stepIdx_eq (labels : List PyStr) (probs : List α) (fd : List (String × α))
    (idx : Nat) :
    stepIdx labels probs fd idx =
      applyBucketsGen ANIMAL_BUCKETS fd (lowerStr (labels.getD idx []))
        (probs.getD idx 0) := rfl

theorem lookupKey_foldl_stepIdx {labels : List PyStr} {probs : List α}
    {b : String} {kws : List PyStr} (hmem : (b, kws) ∈ ANIMAL_BUCKETS)
    (idxs : List Nat) (fd : List (String × α)) :
    lookupKey b (idxs.foldl (stepIdx labels probs) fd) =
      idxs.foldl (fun acc idx =>
        if entryMatches (lowerStr (labels.getD idx [])) kws then
          omax acc (probs.getD idx 0)
        else acc) (lookupKey b fd) := by
  induction idxs generalizing fd with
  | nil => rfl
  | cons i is ih =>
      rw [List.foldl_cons, List.foldl_cons, ih]
      congr 1
      rw [stepIdx_eq]
      exact lookupKey_applyBucketsGen animal_buckets_keys_nodup hmem fd _ _

theorem foldl_omax_filterMap (p : Nat → Bool) (f : Nat → α) (idxs : List Nat)
    (acc : Option α) :
    idxs.foldl (fun acc idx => if p idx then omax acc (f idx) else acc) acc =
      (idxs.filterMap (fun idx => if p idx then some (f idx) else none)).foldl
        omax acc := by
  induction idxs generalizing acc with
  | nil => rfl
  | cons i is ih =>
      rw [List.foldl_cons, List.filterMap_cons]
      cases hp : p i with
      | true => simp only [if_pos rfl, List.foldl_cons]; exact ih _
      | false => simp only [if_neg (by simp : ¬ (false = true))]; exact ih _

theorem lookupKey_bucketFold {labels : List PyStr} {probs : List α} {b : String}
    {kws : List PyStr} (hmem : (b, kws) ∈ ANIMAL_BUCKETS) :
    lookupKey b (bucketFold labels probs) =
      omaxList (matchingScores labels probs kws) := by
  rw [bucketFold_eq_foldl, lookupKey_foldl_stepIdx hmem]
  rw [foldl_omax_filterMap
    (fun idx => entryMatches (lowerStr (labels.getD idx [])) kws)
    (fun idx => probs.getD idx 0)]
  rfl

theorem foldl_stepIdx_keys_nodup (labels : List PyStr) (probs : List α)
    (idxs : List Nat) {fd : List (String × α)} (h : (keysOf fd).Nodup) :
    (keysOf (idxs.foldl (stepIdx labels probs) fd)).Nodup := by
  induction idxs generalizing fd with
  | nil => exact h
  | cons i is ih =>
      rw [List.foldl_cons]
      exact ih (by rw [stepIdx_eq]; exact keysOf_applyBucketsGen_nodup h _ _)

theorem bucketFold_keys_nodup (labels : List PyStr) (probs : List α) :
    (keysOf (bucketFold labels probs)).Nodup := by
  rw [bucketFold_eq_foldl]
  exact foldl_stepIdx_keys_nodup labels probs _ (by simp [keysOf])

theorem foldl_stepIdx_keys_sub {labels : List PyStr} {probs : List α}
    {idxs : List Nat} {fd : List (String × α)} {b' : String}
    (h : b' ∈ keysOf (idxs.foldl (stepIdx labels probs) fd)) :
    b' ∈ keysOf fd ∨ b' ∈ ANIMAL_BUCKETS.map Prod.fst := by
  induction idxs generalizing fd with
  | nil => exact Or.inl h
  | cons i is ih =>
      rw [List.foldl_cons] at h
      rcases ih h with h' | h'
      · rw [stepIdx_eq] at h'
        exact mem_keysOf_applyBucketsGen h'
      · exact Or.inr h'

theorem bucketFold_keys_sub {labels : List PyStr} {probs : List α} {b' : String}
    (h : b' ∈ keysOf (bucketFold labels probs)) :
    b' ∈ ANIMAL_BUCKETS.map Prod.fst := by
  rw [bucketFold_eq_foldl] at h
  rcases foldl_stepIdx_keys_sub h with h' | h'
  · simp [keysOf] at h'
  · exact h'

theorem foldl_stepIdx_values {labels : List PyStr} {probs : List α}
    {idxs : List Nat} {fd : List (String × α)} {p : String × α}
    (hp : p ∈ idxs.foldl (stepIdx labels probs) fd) :
    (∃ idx ∈ idxs, p.2 = probs.getD idx 0) ∨ ∃ q ∈ fd, p.2 = q.2 := by
  induction idxs generalizing fd with
  | nil => exact Or.inr ⟨p, hp, rfl⟩
  | cons i is ih =>
      rw [List.foldl_cons] at hp
      rcases ih hp with ⟨idx, hidx, he⟩ | ⟨q, hq, he⟩
      · exact Or.inl ⟨idx, List.mem_cons_of_mem _ hidx, he⟩
      · rw [stepIdx_eq] at hq
        rcases applyBucketsGen_values hq with h' | ⟨q', hq', he'⟩
        · exact Or.inl ⟨i, List.mem_cons_self _ _, he.trans h'⟩
        · exact Or.inr ⟨q', hq', he.trans he'⟩

theorem bucketFold_values {labels : List PyStr} {probs : List α} {p : String × α}
    (hp : p ∈ bucketFold labels probs) :
    ∃ idx ∈ topk probs, p.2 = probs.getD idx 0 := by
  rw [bucketFold_eq_foldl] at hp
  rcases foldl_stepIdx_values hp with h | ⟨q, hq, _⟩
  · exact h
  · cases hq

theorem foldl_stepIdx_head {labels : List PyStr} {probs : List α} {k : String}
    {v : α} (idxs : List Nat) (r : List (String × α))
    (h : ∀ idx ∈ idxs, probs.getD idx 0 ≤ v) :
    ∃ r', idxs.foldl (stepIdx labels probs) ((k, v) :: r) = (k, v) :: r' := by
  induction idxs generalizing r with
  | nil => exact ⟨r, rfl⟩
  | cons i is ih =>
      rw [List.foldl_cons, stepIdx_eq]
      obtain ⟨r1, hr1⟩ := applyBucketsGen_head r (h i (List.mem_cons_self _ _))
      rw [hr1]
      exact ih r1 (fun idx hidx => h idx (List.mem_cons_of_mem _ hidx))

theorem applyBucketsGen_no_match {bks : List (String × List PyStr)}
    {fd : List (String × α)} {label : PyStr} {s : α}
    (h : ∀ bk ∈ bks, entryMatches label bk.2 = false) :
    applyBucketsGen bks fd label s = fd := by
  induction bks generalizing fd with
  | nil => rfl
  | cons bk rest ih =>
      rw [applyBucketsGen_cons, applyKeywords_eq]
      rw [if_neg (by rw [h bk (List.mem_cons_self _ _)]; simp)]
      exact ih (fun bk' hbk' => h bk' (List.mem_cons_of_mem _ hbk'))

theorem foldl_stepIdx_no_match {labels : List PyStr} {probs : List α}
    {idxs : List Nat} (fd : List (String × α))
    (h : ∀ idx ∈ idxs, ∀ bk ∈ ANIMAL_BUCKETS,
      entryMatches (lowerStr (labels.getD idx [])) bk.2 = false) :
    idxs.foldl (stepIdx labels probs) fd = fd := by
  induction idxs generalizing fd with
  | nil => rfl
  | cons i is ih =>
      rw [List.foldl_cons, stepIdx_eq,
        applyBucketsGen_no_match (h i (List.mem_cons_self _ _))]
      exact ih fd (fun idx hidx => h idx (List.mem_cons_of_mem _ hidx))

/-! ### The numerically stable softmax over the reals -/

theorem foldl_max_init (l : List α) (a : α) : a ≤ l.foldl max a := by
  induction l generalizing a with
  | nil => exact le_refl a
  | cons x xs ih => exact le_trans (le_max_left a x) (ih (max a x))

theorem foldl_max_mem {l : List α} {x : α} (hx : x ∈ l) (a : α) :
    x ≤ l.foldl max a := by
  induction l generalizing a with
  | nil => cases hx
  | cons y ys ih =>
      rcases List.mem_cons.mp hx with rfl | hx
      · exact le_trans (le_max_right a x) (foldl_max_init ys _)
      · exact ih hx _

theorem listMaxD_le {l : List α} {x : α} (hx : x ∈ l) (d : α) : x ≤ listMaxD l d := by
  cases l with
  | nil => cases hx
  | cons y ys =>
      rcases List.mem_cons.mp hx with rfl | hx
      · exact foldl_max_init ys x
      · exact foldl_max_mem hx y

theorem sum_map_div (l : List ℝ) (c : ℝ) :
    (l.map (fun e => e / c)).sum = l.sum / c := by
  induction l with
  | nil => simp
  | cons x xs ih => simp [ih, add_div]

theorem softmax_comp (logits : List ℝ) :
    softmax logits = logits.map (fun x => Real.exp (x - listMaxD logits 0) /
      (logits.map (fun y => Real.exp (y - listMaxD logits 0))).sum) := by
  rw [show softmax logits = (logits.map (fun x => Real.exp (x - listMaxD logits 0))).map
    (fun e => e / (logits.map (fun x => Real.exp (x - listMaxD logits 0))).sum) from rfl]
  rw [List.map_map]
  rfl

theorem softmax_length (logits : List ℝ) :
    (softmax logits).length = logits.length := by
  rw [softmax_comp, List.length_map]

theorem exps_sum_pos {logits : List ℝ} (h : logits ≠ []) :
    0 < (logits.map (fun y => Real.exp (y - listMaxD logits 0))).sum := by
  refine List.sum_pos _ ?_ ?_
  · intro e he
    obtain ⟨x, _, rfl⟩ := List.mem_map.mp he
    exact Real.exp_pos _
  · simpa using h

theorem softmax_nonneg {logits : List ℝ} {p : ℝ} (hp : p ∈ softmax logits) :
    0 ≤ p := by
  have hne : logits ≠ [] := by rintro rfl; cases hp
  rw [softmax_comp] at hp
  obtain ⟨x, _, rfl⟩ := List.mem_map.mp hp
  exact div_nonneg (le_of_lt (Real.exp_pos _)) (le_of_lt (exps_sum_pos hne))

theorem softmax_le_one {logits : List ℝ} {p : ℝ} (hp : p ∈ softmax logits) :
    p ≤ 1 := by
  have hne : logits ≠ [] := by rintro rfl; cases hp
  rw [softmax_comp] at hp
  obtain ⟨x, hx, rfl⟩ := List.mem_map.mp hp
  rw [div_le_one (exps_sum_pos hne)]
  refine List.single_le_sum ?_ _ (List.mem_map_of_mem _ hx)
  intro e he
  obtain ⟨y, _, rfl⟩ := List.mem_map.mp he
  exact le_of_lt (Real.exp_pos _)

theorem softmax_sum {logits : List ℝ} (h : logits ≠ []) :
    (softmax logits).sum = 1 := by
  have hS := exps_sum_pos h
  rw [show softmax logits = (logits.map (fun x => Real.exp (x - listMaxD logits 0))).map
    (fun e => e / (logits.map (fun x => Real.exp (x - listMaxD logits 0))).sum) from rfl]
  rw [sum_map_div]
  exact div_self (ne_of_gt hS)

theorem naiveSoftmax_comp (logits : List ℝ) :
    naiveSoftmax logits = logits.map (fun x => Real.exp x /
      (logits.map Real.exp).sum) := by
  rw [show naiveSoftmax logits = (logits.map Real.exp).map
    (fun e => e / (logits.map Real.exp).sum) from rfl]
  rw [List.map_map]
  rfl

theorem softmax_eq_naive (logits : List ℝ) : softmax logits = naiveSoftmax logits := by
  rcases eq_or_ne logits [] with rfl | h
  · rfl
  have hSn : 0 < (logits.map Real.exp).sum := by
    refine List.sum_pos _ ?_ ?_
    · intro e he
      obtain ⟨x, _, rfl⟩ := List.mem_map.mp he
      exact Real.exp_pos _
    · simpa using h
  have hmap : logits.map (fun y => Real.exp (y - listMaxD logits 0)) =
      (logits.map Real.exp).map (fun e => e / Real.exp (listMaxD logits 0)) := by
    rw [List.map_map]
    refine List.map_congr_left ?_
    intro y _
    simp [Function.comp, Real.exp_sub]
  have hsum : (logits.map (fun y => Real.exp (y - listMaxD logits 0))).sum =
      (logits.map Real.exp).sum / Real.exp (listMaxD logits 0) := by
    rw [hmap, sum_map_div]
  rw [softmax_comp, naiveSoftmax_comp]
  refine List.map_congr_left ?_
  intro x _
  rw [hsum, Real.exp_sub]
  rw [div_div_div_cancel_right₀]
  exact Real.exp_ne_zero _

theorem softmax_getD {logits : List ℝ} {j : Nat} (hj : j < logits.length) :
    (softmax logits).getD j 0 =
      Real.exp (logits.getD j 0 - listMaxD logits 0) /
        (logits.map (fun y => Real.exp (y - listMaxD logits 0))).sum := by
  have hlen : j < (softmax logits).length := by rw [softmax_length]; exact hj
  rw [List.getD_eq_getElem _ _ hlen, List.getD_eq_getElem _ _ hj]
  simp only [softmax_comp, List.getElem_map]

theorem softmax_lt {logits : List ℝ} {i j : Nat} (hi : i < logits.length)
    (hj : j < logits.length) (hlt : logits.getD j 0 < logits.getD i 0) :
    (softmax logits).getD j 0 < (softmax logits).getD i 0 := by
  have hne : logits ≠ [] := List.ne_nil_of_length_pos (by omega)
  rw [softmax_getD hj, softmax_getD hi]
  exact (div_lt_div_right (exps_sum_pos hne)).mpr
    (Real.exp_lt_exp.mpr (by linarith))

theorem softmax_mem_getD {logits : List ℝ} {j : Nat} (hj : j < logits.length) :
    (softmax logits).getD j 0 ∈ softmax logits := by
  have hlen : j < (softmax logits).length := by rw [softmax_length]; exact hj
  rw [List.getD_eq_getElem _ _ hlen]
  exact List.getElem_mem _

/-! ### Placeholder labels never match any keyword -/

theorem digit_goodChar : ∀ d : Nat, d < 10 → goodChar (Char.ofNat (48 + d)) := by
  decide

theorem natDigits_good (n : Nat) : ∀ c ∈ natDigits n, goodChar c := by
  induction n using Nat.strong_induction_on with
  | _ n ih =>
      rw [natDigits]
      by_cases h : n < 10
      · rw [if_pos h]
        intro c hc
        rw [List.mem_singleton] at hc
        exact hc ▸ digit_goodChar n h
      · rw [if_neg h]
        intro c hc
        rcases List.mem_append.mp hc with h' | h'
        · exact ih (n / 10) (Nat.div_lt_self (by omega) (by omega)) c h'
        · rw [List.mem_singleton] at h'
          exact h' ▸ digit_goodChar (n % 10) (Nat.mod_lt _ (by omega))

theorem classUnderscore_good : ∀ c ∈ "class_".data, goodChar c := by decide

theorem placeholderLabel_good (i : Nat) : ∀ c ∈ placeholderLabel i, goodChar c := by
  intro c hc
  rcases List.mem_append.mp hc with h | h
  · exact classUnderscore_good c h
  · exact natDigits_good i c h

theorem goodChar_toLower {c : Char} (h : goodChar c) : Char.toLower c = c := by
  have hall : ∀ c' ∈ "class_0123456789".data, Char.toLower c' = c' := by decide
  exact hall c h

theorem lowerStr_of_good {s : PyStr} (h : ∀ c ∈ s, goodChar c) : lowerStr s = s := by
  induction s with
  | nil => rfl
  | cons c cs ih =>
      rw [show lowerStr (c :: cs) = Char.toLower c :: lowerStr cs from rfl]
      rw [goodChar_toLower (h c (List.mem_cons_self _ _))]
      rw [ih (fun c' hc' => h c' (List.mem_cons_of_mem _ hc'))]

theorem keywords_have_bad :
    ∀ bk ∈ ANIMAL_BUCKETS, ∀ k ∈ bk.2, ∃ c ∈ k, ¬ goodChar c := by decide

theorem placeholderLabels_getD (n i : Nat) :
    (placeholderLabels n).getD i [] =
      if i < n then placeholderLabel i else [] := by
  by_cases h : i < n
  · rw [if_pos h]
    have hlen : i < (placeholderLabels n).length := by
      simpa [placeholderLabels] using h
    rw [List.getD_eq_getElem _ _ hlen]
    simp [placeholderLabels]
  · rw [if_neg h]
    apply List.getD_eq_default
    simp only [placeholderLabels, List.length_map, List.length_range]
    omega

theorem entryMatches_placeholder (n idx : Nat) (bk : String × List PyStr)
    (hbk : bk ∈ ANIMAL_BUCKETS) :
    entryMatches (lowerStr ((placeholderLabels n).getD idx [])) bk.2 = false := by
  have hgood : ∀ c ∈ (placeholderLabels n).getD idx [], goodChar c := by
    rw [placeholderLabels_getD]
    by_cases h : idx < n
    · rw [if_pos h]; exact placeholderLabel_good idx
    · rw [if_neg h]; intro c hc; cases hc
  rw [lowerStr_of_good hgood]
  rw [show entryMatches ((placeholderLabels n).getD idx []) bk.2 =
    bk.2.any (fun k => hasSubstr ((placeholderLabels n).getD idx []) k) from rfl]
  rw [List.any_eq_false]
  intro k hk
  obtain ⟨c, hc, hbad⟩ := keywords_have_bad bk hbk k hk
  rw [hasSubstr_false_of_bad hc hbad hgood]
  simp

theorem bucketFold_placeholder (n : Nat) (probs : List α) :
    bucketFold (placeholderLabels n) probs = [] := by
  rw [bucketFold_eq_foldl]
  exact foldl_stepIdx_no_match []
    (fun idx _ bk hbk => entryMatches_placeholder n idx bk hbk)

/-! ### From the found dictionary to the returned list -/

theorem mem_predictFromProbs_iff {labels : List PyStr} {probs : List α}
    {b : String} {s : α} :
    (b, s) ∈ predictFromProbs labels probs ↔
      lookupKey b (bucketFold labels probs) = some s := by
  rw [show predictFromProbs labels probs = sortDescBy (bucketFold labels probs)
    from rfl]
  rw [(sortDescBy_perm _).mem_iff]
  exact (lookupKey_eq_some_iff (bucketFold_keys_nodup labels probs)).symm

theorem mem_matchingScores {labels : List PyStr} {probs : List α}
    {kws : List PyStr} {s : α} (hs : s ∈ matchingScores labels probs kws) :
    ∃ idx ∈ topk probs,
      entryMatches (lowerStr (labels.getD idx [])) kws = true ∧
      s = probs.getD idx 0 := by
  obtain ⟨idx, hidx, hval⟩ := List.mem_filterMap.mp hs
  by_cases hm : entryMatches (lowerStr (labels.getD idx [])) kws = true
  · rw [if_pos hm] at hval
    exact ⟨idx, hidx, hm, (Option.some.inj hval).symm⟩
  · rw [if_neg hm] at hval
    cases hval

theorem animal_buckets_cons :
    ∃ dogKws restB, ANIMAL_BUCKETS = ("Dog", dogKws) :: restB ∧
      "labrador".data ∈ dogKws :=
  ⟨_, _, rfl, by decide⟩

theorem applyBucketsGen_head_first {bk : String × List PyStr}
    {rest : List (String × List PyStr)} {lbl : PyStr} {s : α}
    (hm : entryMatches lbl bk.2 = true) :
    ∃ r', applyBucketsGen (bk :: rest) ([] : List (String × α)) lbl s =
      (bk.1, s) :: r' := by
  rw [applyBucketsGen_cons, applyKeywords_eq, if_pos hm]
  rw [show setMax ([] : List (String × α)) bk.1 s = [(bk.1, s)] from rfl]
  exact applyBucketsGen_head [] (le_refl s)

theorem predictFromProbs_head_dog {labels : List PyStr} {probs : List α} {i : Nat}
    (hi : i < probs.length)
    (hmax : ∀ j, j < probs.length → j ≠ i → probs.getD j 0 < probs.getD i 0)
    (hlab : hasSubstr (lowerStr (labels.getD i [])) "labrador".data = true) :
    (predictFromProbs labels probs).head? = some ("Dog", probs.getD i 0) := by
  obtain ⟨t, ht⟩ := topk_eq_cons_of_strict_max hi hmax
  obtain ⟨dogKws, restB, htab, hlabmem⟩ := animal_buckets_cons
  have hmatch : entryMatches (lowerStr (labels.getD i [])) dogKws = true :=
    List.any_eq_true.mpr ⟨"labrador".data, hlabmem, hlab⟩
  have hstep0 : ∃ r0, stepIdx labels probs [] i =
      ("Dog", probs.getD i 0) :: r0 := by
    rw [stepIdx_eq, htab]
    exact applyBucketsGen_head_first hmatch
  obtain ⟨r0, hr0⟩ := hstep0
  have hint : i ∉ t := by
    have hnd := topk_nodup probs
    rw [ht, List.nodup_cons] at hnd
    exact hnd.1
  have htail_le : ∀ idx ∈ t, probs.getD idx 0 ≤ probs.getD i 0 := by
    intro idx hidx
    have hmem : idx ∈ topk probs := ht ▸ List.mem_cons_of_mem _ hidx
    have hne : idx ≠ i := fun hEq => hint (hEq ▸ hidx)
    exact le_of_lt (hmax idx (topk_mem_lt hmem) hne)
  have hfold : ∃ r1, bucketFold labels probs =
      ("Dog", probs.getD i 0) :: r1 := by
    rw [bucketFold_eq_foldl, ht, List.foldl_cons, hr0]
    exact foldl_stepIdx_head t r0 htail_le
  obtain ⟨r1, hr1⟩ := hfold
  have hall_le : ∀ y ∈ r1, y.2 ≤ probs.getD i 0 := by
    intro y hy
    have hyfold : y ∈ bucketFold labels probs := by
      rw [hr1]; exact List.mem_cons_of_mem _ hy
    obtain ⟨idx, hidx, hval⟩ := bucketFold_values hyfold
    rcases eq_or_ne idx i with rfl | hne
    · exact le_of_eq hval
    · exact hval ▸ le_of_lt (hmax idx (topk_mem_lt hidx) hne)
  rw [show predictFromProbs labels probs = sortDescBy (bucketFold labels probs)
    from rfl, hr1]
  rw [sortDescBy_cons_of_max hall_le]
  rfl

theorem filter_key_length_le {β : Type*} {l : List (String × β)}
    (hnd : (l.map Prod.fst).Nodup) (b : String) :
    (l.filter (fun p => p.1 == b)).length ≤ 1 := by
  induction l with
  | nil => simp
  | cons p rest ih =>
      rw [List.map_cons, List.nodup_cons] at hnd
      by_cases hp : p.1 = b
      · have hfil : rest.filter (fun q => q.1 == b) = [] := by
          rw [List.filter_eq_nil_iff]
          intro q hq
          simp only [beq_iff_eq]
          intro hqb
          exact hnd.1 (hp ▸ hqb ▸ List.mem_map_of_mem Prod.fst hq)
        rw [List.filter_cons_of_pos (by simp [hp]), hfil]
        simp
      · rw [List.filter_cons_of_neg (by simp [hp])]
        exact ih hnd.2

/-! ## The claims -/

/-- C1: for every label list and every logit vector (hence for every valid
color image fed through the network), the list returned by predict has every
score in the interval zero to one and is sorted non-increasing by score. -/
theorem claim_C1 (labels : List PyStr) (logits : List ℝ) :
    (∀ p ∈ predictModel labels logits, 0 ≤ p.2 ∧ p.2 ≤ 1) ∧
    (predictModel labels logits).Pairwise (fun a b => b.2 ≤ a.2) := by
  constructor
  · intro p hp
    have hp' : p ∈ bucketFold labels (softmax logits) :=
      (sortDescBy_perm (bucketFold labels (softmax logits))).mem_iff.mp hp
    obtain ⟨idx, hidx, hval⟩ := bucketFold_values hp'
    have hlt : idx < logits.length := by
      rw [← softmax_length]; exact topk_mem_lt hidx
    have hmem : (softmax logits).getD idx 0 ∈ softmax logits :=
      softmax_mem_getD hlt
    rw [hval]
    exact ⟨softmax_nonneg hmem, softmax_le_one hmem⟩
  · exact sortDescBy_pairwise (bucketFold labels (softmax logits))

/-- C2: the score recorded for a bucket is the maximum, not the sum, of the
softmax probabilities of the selected classes whose label matches the bucket;
membership in the returned list coincides with that recorded maximum. -/
theorem claim_C2 (labels : List PyStr) (logits : List ℝ) (b : String)
    (kws : List PyStr) (hmem : (b, kws) ∈ ANIMAL_BUCKETS) :
    lookupKey b (bucketFold labels (softmax logits)) =
      omaxList (matchingScores labels (softmax logits) kws) ∧
    (∀ s : ℝ, lookupKey b (bucketFold labels (softmax logits)) = some s →
      s ∈ matchingScores labels (softmax logits) kws ∧
      ∀ x ∈ matchingScores labels (softmax logits) kws, x ≤ s) ∧
    (∀ s : ℝ, ((b, s) ∈ predictModel labels logits ↔
      lookupKey b (bucketFold labels (softmax logits)) = some s)) := by
  refine ⟨lookupKey_bucketFold hmem, ?_, ?_⟩
  · intro s hs
    rw [lookupKey_bucketFold hmem] at hs
    exact omaxList_eq_some hs
  · intro s
    exact mem_predictFromProbs_iff

/-- Witness for C2 at the Cat bucket and empty inputs. -/
theorem claim_C2_witness :
    ("Cat", ["cat".data, "tabby".data, "siamese".data, "persian".data,
      "lynx".data]) ∈ ANIMAL_BUCKETS ∧
    lookupKey "Cat" (bucketFold [] (softmax [])) =
      omaxList (matchingScores [] (softmax [])
        ["cat".data, "tabby".data, "siamese".data, "persian".data,
          "lynx".data]) :=
  ⟨by decide, (claim_C2 [] [] "Cat" _ (by decide)).1⟩

/-- C3: when the label source is unavailable and every label is the
synthesized placeholder class underscore index, predict returns the empty
list for every logit vector. -/
theorem claim_C3 (n : Nat) (logits : List ℝ) :
    predictModel (placeholderLabels n) logits = [] := by
  rw [show predictModel (placeholderLabels n) logits =
    sortDescBy (bucketFold (placeholderLabels n) (softmax logits)) from rfl]
  rw [bucketFold_placeholder]
  rfl

/-- C4: if the single highest class of the logit vector has a lower-cased
label containing the substring labrador, the first entry of the returned
list is the Dog bucket with that class's softmax probability. -/
theorem claim_C4 (labels : List PyStr) (logits : List ℝ) (i : Nat)
    (hi : i < logits.length)
    (hmax : ∀ j, j < logits.length → j ≠ i → logits.getD j 0 < logits.getD i 0)
    (hlab : hasSubstr (lowerStr (labels.getD i [])) "labrador".data = true) :
    (predictModel labels logits).head? =
      some ("Dog", (softmax logits).getD i 0) := by
  have hi' : i < (softmax logits).length := by rw [softmax_length]; exact hi
  have hmax' : ∀ j, j < (softmax logits).length → j ≠ i →
      (softmax logits).getD j 0 < (softmax logits).getD i 0 := by
    intro j hj hne
    rw [softmax_length] at hj
    exact softmax_lt hi hj (hmax j hj hne)
  exact predictFromProbs_head_dog hi' hmax' hlab

/-- Witness for C4: two classes with logits log 3 and 0, the larger one
labelled Labrador retriever. -/
theorem claim_C4_witness :
    (predictModel ["Labrador retriever".data, "goldfish".data]
      [Real.log 3, 0]).head? =
      some ("Dog", (softmax [Real.log 3, 0]).getD 0 0) := by
  refine claim_C4 _ _ 0 (by decide) ?_ (by decide)
  intro j hj hne
  have hj1 : j = 1 := by
    simp only [List.length_cons, List.length_nil] at hj
    omega
  subst hj1
  simpa using Real.log_pos (by norm_num)

/-- C5: when none of the selected top-K labels matches any keyword of any
bucket, predict returns the empty list (and, being a total function in this
embedding, raises nothing). -/
theorem claim_C5 (labels : List PyStr) (probs : List α)
    (h : ∀ idx ∈ topk probs, ∀ bk ∈ ANIMAL_BUCKETS,
      entryMatches (lowerStr (labels.getD idx [])) bk.2 = false) :
    predictFromProbs labels probs = [] := by
  rw [show predictFromProbs labels probs =
    sortDescBy (bucketFold labels probs) from rfl]
  rw [bucketFold_eq_foldl, foldl_stepIdx_no_match [] h]
  rfl

/-- Witness for C5: labels car and truck match no animal keyword. -/
theorem claim_C5_witness :
    predictFromProbs ["car".data, "truck".data] ([5, 3] : List Nat) = [] :=
  claim_C5 _ _ (by decide)

/-- C6: the selection considered for bucket matching consists of exactly 20
distinct indices, all in range, and every selected index's probability is at
least every unselected one's; K is fixed at 20. -/
theorem claim_C6 (probs : List α) (h : 20 ≤ probs.length) :
    (topk probs).length = 20 ∧ (topk probs).Nodup ∧
    ∀ i ∈ topk probs, i < probs.length ∧
      ∀ j, j < probs.length → j ∉ topk probs →
        probs.getD j 0 ≤ probs.getD i 0 := by
  refine ⟨?_, topk_nodup probs, ?_⟩
  · rw [topk_length]; omega
  · intro i hi
    exact ⟨topk_mem_lt hi, fun j hj hjn => topk_dominates hi hj hjn⟩

/-- Witness for C6 on a list of 21 probabilities. -/
theorem claim_C6_witness :
    20 ≤ (List.range 21).length ∧ (topk (List.range 21)).length = 20 :=
  ⟨by decide, (claim_C6 (List.range 21) (by decide)).1⟩

/-- C7: the conversion subtracts the maximum logit, exponentiates and divides
by the sum; the result is entrywise non-negative, sums to one on a non-empty
logit vector, and coincides with the standard softmax of the logits. -/
theorem claim_C7 (logits : List ℝ) (h : logits ≠ []) :
    (∀ p ∈ softmax logits, 0 ≤ p) ∧ (softmax logits).sum = 1 ∧
      softmax logits = naiveSoftmax logits :=
  ⟨fun _ hp => softmax_nonneg hp, softmax_sum h, softmax_eq_naive logits⟩

/-- Witness for C7 on the one-element logit vector. -/
theorem claim_C7_witness :
    ([0] : List ℝ) ≠ [] ∧ (softmax [0]).sum = 1 :=
  ⟨by simp, (claim_C7 [0] (by simp)).2.1⟩

/-- C8: the bucket names in every returned list are pairwise distinct. -/
theorem claim_C8 (labels : List PyStr) (logits : List ℝ) :
    (keysOf (predictModel labels logits)).Nodup := by
  have hperm : (keysOf (predictModel labels logits)).Perm
      (keysOf (bucketFold labels (softmax logits))) :=
    (sortDescBy_perm (bucketFold labels (softmax logits))).map Prod.fst
  exact hperm.nodup_iff.mpr (bucketFold_keys_nodup _ _)

/-- C9: a predict call leaves the per-instance state unchanged, a repeated
call on the resulting state returns the same output, and the output depends
only on the label list and the logits the network produces for the image. -/
theorem claim_C9 {Img : Type} (st st' : ClassifierState Img) (img img' : Img)
    (hl : st'.labels = st.labels) (hm : st'.modelFn img' = st.modelFn img) :
    (predictCall st img).2 = st ∧
    (predictCall ((predictCall st img).2) img).1 = (predictCall st img).1 ∧
    (predictCall st' img').1 = (predictCall st img).1 := by
  refine ⟨rfl, rfl, ?_⟩
  show predictFromProbs st'.labels (softmax (st'.modelFn img')) = _
  rw [hl, hm]
  rfl

/-- Witness for C9 on a trivial state. -/
theorem claim_C9_witness :
    (predictCall (ClassifierState.mk ([] : List PyStr)
      (fun _ : Unit => ([] : List ℝ))) ()).2 =
      ClassifierState.mk ([] : List PyStr) (fun _ : Unit => ([] : List ℝ)) :=
  (claim_C9 _ _ () () rfl rfl).1

/-- C10: every returned list has at most one entry per bucket, hence at most
16 entries, and each returned score is the softmax probability of some
selected top-K class whose lower-cased label matches a keyword of that
bucket. -/
theorem claim_C10 (labels : List PyStr) (logits : List ℝ) :
    (∀ b : String, ((predictModel labels logits).filter
      (fun p => p.1 == b)).length ≤ 1) ∧
    (predictModel labels logits).length ≤ 16 ∧
    ∀ p ∈ predictModel labels logits, ∃ kws idx,
      (p.1, kws) ∈ ANIMAL_BUCKETS ∧ idx ∈ topk (softmax logits) ∧
      entryMatches (lowerStr (labels.getD idx [])) kws = true ∧
      p.2 = (softmax logits).getD idx 0 := by
  have hperm := sortDescBy_perm (bucketFold labels (softmax logits))
  have hkeysperm : (keysOf (predictModel labels logits)).Perm
      (keysOf (bucketFold labels (softmax logits))) := hperm.map Prod.fst
  have hnd : (keysOf (predictModel labels logits)).Nodup :=
    hkeysperm.nodup_iff.mpr (bucketFold_keys_nodup _ _)
  refine ⟨fun b => filter_key_length_le hnd b, ?_, ?_⟩
  · have hsub : keysOf (predictModel labels logits) ⊆
        ANIMAL_BUCKETS.map Prod.fst := by
      intro b hb
      exact bucketFold_keys_sub (hkeysperm.mem_iff.mp hb)
    have hle := (List.subperm_of_subset hnd hsub).length_le
    have hlen : (keysOf (predictModel labels logits)).length =
        (predictModel labels logits).length := List.length_map _ _
    have h16 : (ANIMAL_BUCKETS.map Prod.fst).length = 16 := by decide
    omega
  · intro p hp
    obtain ⟨b, s⟩ := p
    have hlook := mem_predictFromProbs_iff.mp hp
    have hbmem : b ∈ keysOf (bucketFold labels (softmax logits)) :=
      List.mem_map_of_mem Prod.fst (hperm.mem_iff.mp hp)
    obtain ⟨bk, hbk, hbk1⟩ := List.mem_map.mp (bucketFold_keys_sub hbmem)
    have hpair : (b, bk.2) ∈ ANIMAL_BUCKETS := by
      rw [← hbk1]; exact hbk
    rw [lookupKey_bucketFold hpair] at hlook
    obtain ⟨hsmem, _⟩ := omaxList_eq_some hlook
    obtain ⟨idx, hidx, hmatch, hval⟩ := mem_matchingScores hsmem
    exact ⟨bk.2, idx, hpair, hidx, hmatch, hval⟩

end ImmichAnimal
